import Mathlib

/-
Verification development for the par-trie repository (a lock-free prefix
tree).  The definitions below are a shallow embedding of the single-threaded
semantics of the core trie code:

  - FoundM        embeds the result accumulator  Found           (src/lib.rs)
  - NodeM         embeds the trie node           Node            (src/node.rs)
  - RawTrieM      embeds the trie root           RawTrie         (src/lib.rs)
  - insertSeq     embeds RawTrie::insert_seq / insert_rest / push_return
  - find          embeds RawTrie::find / searching / recurse
  - resizeCheck   embeds RawTrie::resize_check

Atomics are modelled by plain state passing (single-threaded executions);
machine pointers become Option values (null = none); the unrecoverable
panic paths of the code (the todo macro calls and failing assertions) are
modelled by returning none from the enclosing operation.
-/

namespace ParTrie

universe u

variable {T : Type u} {α : Type u}

/-- First index in a list whose element satisfies the predicate; embeds the
Iterator::position calls used by RawTrie::position, Node::child_position and
Found::branch_split. -/
def listPos (p : α → Bool) : List α → Option Nat
  | [] => none
  | a :: rest => if p a then some 0 else (listPos p rest).map (· + 1)

/-- Embeds the struct Found of src/lib.rs: the roll_back field is declared in
the source but never read or written, temp is the scratch path, collected the
discovered sequences. -/
structure FoundM (T : Type u) where
  roll_back : List Nat
  temp : List T
  collected : List (List T)

/-- Found::new. -/
def FoundM.new : FoundM T := ⟨[], [], []⟩

/-- Found::push_val: self.temp.push(t). -/
def pushVal (t : T) (f : FoundM T) : FoundM T :=
  { f with temp := f.temp ++ [t] }

/-- Found::branch_end_continue: self.collected.push(self.temp.clone()). -/
def branchEndContinue (f : FoundM T) : FoundM T :=
  { f with collected := f.collected ++ [f.temp] }

/-- Found::branch_end: push temp to collected, then pop the last element of
temp. -/
def branchEnd (f : FoundM T) : FoundM T :=
  { f with collected := f.collected ++ [f.temp], temp := f.temp.dropLast }

/-- Found::branch_split: find the first position of key in temp and truncate
temp to that position inclusive (split_at(idx + 1).0). -/
def branchSplit [DecidableEq T] (key : T) (f : FoundM T) : FoundM T :=
  match listPos (fun item => key == item) f.temp with
  | some idx => { f with temp := f.temp.take (idx + 1) }
  | none => f

/-- Embeds struct Node of src/node.rs: a value, a fixed-capacity array of
child slots (null = none), the occupied-slot counter child_count and the
terminal flag.  The in_use field of the source is never read and is omitted. -/
inductive NodeM (T : Type u) : Type u where
  | mk (val : T) (children : List (Option (NodeM T))) (child_count : Nat)
      (terminal : Bool) : NodeM T

/-- Node.val. -/
def NodeM.val : NodeM T → T
  | .mk v _ _ _ => v

/-- Node.children. -/
def NodeM.children : NodeM T → List (Option (NodeM T))
  | .mk _ c _ _ => c

/-- Node.child_count (Node::child_len reads it). -/
def NodeM.child_count : NodeM T → Nat
  | .mk _ _ c _ => c

/-- Node.terminal (Node::is_terminal reads it). -/
def NodeM.terminal : NodeM T → Bool
  | .mk _ _ _ t => t

/-- Node::new(val, terminal): all 26/2 child slots null, count zero. -/
def NodeM.new (v : T) (term : Bool) : NodeM T :=
  .mk v (List.replicate (26 / 2) none) 0 term

/-- The slot-scan closure shared by RawTrie::position, Node::find_node and
Node::child_position: a null slot never matches, a non-null slot matches when
its node value equals the key. -/
def slotPred [DecidableEq T] (k : T) : Option (NodeM T) → Bool
  | some n => n.val == k
  | none => false

/-- Node::find_node: linear scan of the child slots for a non-null node whose
value equals the target; returns the found node (the source returns the slot,
then the caller loads it). -/
def findNode [DecidableEq T] (k : T) (ch : List (Option (NodeM T))) :
    Option (NodeM T) :=
  match ch.find? (slotPred k) with
  | some (some n) => some n
  | _ => none

/-- Node::child_position: index of the first non-null child slot whose value
equals the new node value. -/
def childPosition [DecidableEq T] (k : T) (ch : List (Option (NodeM T))) :
    Option Nat :=
  listPos (slotPred k) ch

/-- Embeds RawTrie::insert_rest together with the Node::add_child calls it
makes.  The source loop walks vals from index 1 upward; here the suffix
vals[idx..] is the list argument, and the terminal flag idx == vals.len()
becomes rest.isEmpty.  At each level add_child (src/node.rs):
  - panics (todo) when child_count has reached the capacity of the slot
    array: modelled as none;
  - when a child with an equal value exists, descends into it (the source
    mutates that child in place through the slot pointer; here the updated
    child is written back to its slot);
  - otherwise claims slot child_count by CAS from null (a non-null slot
    fails the assert: modelled as none) and increments child_count. -/
def insertRest [DecidableEq T] : List T → NodeM T → Option (NodeM T)
  | [], node => some node
  | next :: rest, .mk v ch cc term =>
    if cc ≥ ch.length then none
    else
      match childPosition next ch with
      | some j =>
        match ch[j]? with
        | some (some child) =>
          (insertRest rest child).map
            (fun child2 => NodeM.mk v (ch.set j (some child2)) cc term)
        | _ => none
      | none =>
        match ch[cc]? with
        | some none =>
          (insertRest rest (NodeM.new next rest.isEmpty)).map
            (fun child2 => NodeM.mk v (ch.set cc (some child2)) (cc + 1) term)
        | _ => none

/-- Embeds struct RawTrie of src/lib.rs: the growable root slot array and the
occupancy counter len.  The resize_flag and lock only coordinate concurrent
resizes and have no observable effect in a single-threaded execution. -/
structure RawTrieM (T : Type u) where
  root : List (Option (NodeM T))
  len : Nat

/-- RawTrie::new: 26/2 null root slots, len 0. -/
def RawTrieM.new : RawTrieM T :=
  ⟨List.replicate (26 / 2) none, 0⟩

/-- RawTrie::len. -/
def RawTrieM.length (s : RawTrieM T) : Nat := s.len

/-- RawTrie::position: index of the first non-null root slot holding the
key. -/
def position [DecidableEq T] (k : T) (s : RawTrieM T) : Option Nat :=
  listPos (slotPred k) s.root

/-- RawTrie::resize_check: returns unchanged unless len + 1 has reached the
root capacity; otherwise allocates a doubled null array, copies the slots
0..len across (slot-wise CAS from null, which always succeeds in a
single-threaded run, so the recomputed count equals len), and installs it.
The source indexes self.root[idx] for idx < len and would panic when
len exceeds the capacity; that situation is unreachable from RawTrie::new. -/
def resizeCheck (s : RawTrieM T) : RawTrieM T :=
  if s.len + 1 < s.root.length then s
  else
    { root := s.root.take s.len ++
        List.replicate (2 * s.root.length - s.len) none,
      len := s.len }

/-- The resize step at the top of RawTrie::insert_seq: when len + 1 has
reached the root capacity, the winner of the resize_flag CAS runs
resize_check (single-threaded the CAS always succeeds and the losers never
spin). -/
def preResize [DecidableEq T] (s : RawTrieM T) : RawTrieM T :=
  if s.len + 1 ≥ s.root.length then resizeCheck s else s

/-- Embeds RawTrie::insert_seq.  After the resize step an empty sequence
does nothing.  Otherwise the first element is looked up among the root
slots: on a hit the remaining elements are inserted below that node (a null
slot after a positive lookup is the todo branch of the source: none); on a
miss a new root node is built, terminal iff len + 1 == vals.len() as in the
source, pushed into slot len by push_return (whose CAS fails on a non-null
slot: none), and the remaining elements are inserted below it. -/
def insertSeq [DecidableEq T] (vals : List T) (s : RawTrieM T) :
    Option (RawTrieM T) :=
  match vals with
  | [] => some (preResize s)
  | first :: rest =>
    match position first (preResize s) with
    | some idx =>
      match (preResize s).root[idx]? with
      | some (some node) =>
        (insertRest rest node).map
          (fun node2 => { preResize s with
            root := (preResize s).root.set idx (some node2) })
      | _ => none
    | none =>
      match (preResize s).root[(preResize s).len]? with
      | some none =>
        (insertRest rest
            (NodeM.new first ((preResize s).len + 1 == rest.length + 1))).map
          (fun node2 =>
            { root := (preResize s).root.set (preResize s).len (some node2),
              len := (preResize s).len + 1 })
      | _ => none

mutual

/-- Embeds fn recurse nested in RawTrie::searching: a terminal leaf ends the
branch (collect and pop); a terminal node with children is collected without
popping; then every non-null child slot is visited in order, pushing the
child value before descending, and after each descent temp is truncated by
branch_split when the current node is non-terminal with more than one
child. -/
def recurse [DecidableEq T] : NodeM T → FoundM T → FoundM T
  | .mk v ch cc term, f =>
    if term && cc == 0 then branchEnd f
    else
      recurseChildren v term cc ch (if term then branchEndContinue f else f)

/-- The children loop of fn recurse: children_iter yields the non-null slots
in array order, so null slots are skipped. -/
def recurseChildren [DecidableEq T] (v : T) (term : Bool) (cc : Nat) :
    List (Option (NodeM T)) → FoundM T → FoundM T
  | [], f => f
  | none :: rest, f => recurseChildren v term cc rest f
  | some c :: rest, f =>
    let f1 := pushVal c.val f
    let f2 := recurse c f1
    let f3 := if !term && cc > 1 then branchSplit v f2 else f2
    recurseChildren v term cc rest f3

end

/-- The prefix-walk loop of RawTrie::searching, recast from the index form of
the source onto the remaining suffix keys[index..]: each successful child
lookup records the child value and advances.  When find_node misses, the
source loop body does nothing and retries the same index forever; the walk
therefore never completes and none marks that divergence (searchLoopFuel
below models the loop verbatim with a step budget). -/
def walkKeys [DecidableEq T] :
    List T → NodeM T → FoundM T → Option (NodeM T × FoundM T)
  | [], node, f => some (node, f)
  | k :: ks, node, f =>
    match findNode k node.children with
    | some child => walkKeys ks child (pushVal child.val f)
    | none => none

/-- RawTrie::searching: the caller has already matched the root node, so the
walk starts at index 1; the node reached at the end of the prefix seeds the
depth-first collection. -/
def searching [DecidableEq T] (node : NodeM T) (keys : List T)
    (f : FoundM T) : Option (FoundM T) :=
  match walkKeys (keys.drop 1) node f with
  | some (endNode, f2) => some (recurse endNode f2)
  | none => none

/-- Embeds RawTrie::find: empty prefix or unmatched first element gives the
empty accumulator; otherwise the root value is recorded and searching runs
(a null slot after a positive lookup is the todo branch: none). -/
def find [DecidableEq T] (s : RawTrieM T) (keys : List T) :
    Option (FoundM T) :=
  match keys with
  | [] => some FoundM.new
  | k :: _ =>
    match position k s with
    | none => some FoundM.new
    | some idx =>
      match s.root[idx]? with
      | some (some node) => searching node keys (pushVal node.val FoundM.new)
      | _ => none

/-- Verbatim fuel model of the while loop in RawTrie::searching, keeping the
index of the source: one fuel unit per loop iteration.  When find_node
misses, the body falls through without advancing index or node, exactly as
in the source, so the same iteration repeats. -/
def searchLoopFuel [DecidableEq T] :
    Nat → List T → Nat → NodeM T → FoundM T → Option (NodeM T × FoundM T)
  | 0, _, _, _, _ => none
  | fuel + 1, keys, index, node, f =>
    match keys[index]? with
    | none => some (node, f)
    | some k =>
      match findNode k node.children with
      | some child =>
          searchLoopFuel fuel keys (index + 1) child (pushVal child.val f)
      | none => searchLoopFuel fuel keys index node f

/-- RawTrie::find built on the fuel model of the searching loop: none when
the given step budget does not complete the walk. -/
def findFuel [DecidableEq T] (fuel : Nat) (s : RawTrieM T) (keys : List T) :
    Option (FoundM T) :=
  match keys with
  | [] => some FoundM.new
  | k :: _ =>
    match position k s with
    | none => some FoundM.new
    | some idx =>
      match s.root[idx]? with
      | some (some node) =>
        (searchLoopFuel fuel keys 1 node (pushVal node.val FoundM.new)).map
          (fun p => recurse p.1 p.2)
      | _ => none

/-- The non-null root slots in array order. -/
def entries (s : RawTrieM T) : List (NodeM T) :=
  s.root.filterMap id

/-- The values held by the non-null root slots. -/
def rootVals (s : RawTrieM T) : List T :=
  (entries s).map NodeM.val

/-- Fold a batch of sequences into a trie with insert_seq, stopping at the
first panic. -/
def insertAll [DecidableEq T] (ws : List (List T)) :
    Option (RawTrieM T) :=
  ws.foldlM (fun s w => insertSeq w s) RawTrieM.new

/-- The node reached from a root slot by walking a sequence of values, as the
insertion and search walks do. -/
def walkNodes [DecidableEq T] : NodeM T → List T → Option (NodeM T)
  | n, [] => some n
  | n, k :: rest =>
    match findNode k n.children with
    | some c => walkNodes c rest
    | none => none

/-- The non-null root node holding the key, as the root lookups of
RawTrie::find and RawTrie::insert_seq locate it. -/
def rootNode [DecidableEq T] (k : T) (s : RawTrieM T) : Option (NodeM T) :=
  match position k s with
  | some idx =>
    match s.root[idx]? with
    | some (some n) => some n
    | _ => none
  | none => none

/-- The node sitting at the end of a value path from the trie root. -/
def pathNode [DecidableEq T] (s : RawTrieM T) : List T → Option (NodeM T)
  | [] => none
  | k :: rest =>
    match rootNode k s with
    | some n => walkNodes n rest
    | none => none

/-- The walk of the given values below a node matches an existing child at
every step. -/
def containsB [DecidableEq T] (n : NodeM T) (rem : List T) : Bool :=
  (walkNodes n rem).isSome

/-- Along the matched walk of the given values below a node, every visited
node still has a free child slot.  add_child checks the capacity before the
existing-match check, so a full node panics even when the next value is
already among its children. -/
def roomB [DecidableEq T] : NodeM T → List T → Bool
  | _, [] => true
  | n, next :: rest =>
    decide (n.child_count < n.children.length) &&
      match findNode next n.children with
      | some c => roomB c rest
      | none => false

/-- roomB started at the root entry matching the first element. -/
def trieRoom [DecidableEq T] (s : RawTrieM T) : List T → Bool
  | [] => true
  | k :: rest =>
    match rootNode k s with
    | some n => roomB n rest
    | none => false

/-- Trie states reachable from RawTrie::new by successful single-threaded
insert_seq calls, paired with the batch of sequences inserted so far. -/
inductive Built [DecidableEq T] : RawTrieM T → List (List T) → Prop where
  | base : Built RawTrieM.new []
  | step {s : RawTrieM T} {ws : List (List T)} {vals : List T}
      {s2 : RawTrieM T} : Built s ws → insertSeq vals s = some s2 →
      Built s2 (ws ++ [vals])

/-- A node whose occupied child slots form a prefix of the slot array:
children is a block of non-null slots followed by null padding, child_count
counts the non-null block, and every child node is itself dense. -/
inductive DenseNode : NodeM T → Prop where
  | intro (v : T) (kids : List (NodeM T)) (pad : Nat) (term : Bool)
      (hk : ∀ k ∈ kids, DenseNode k) :
      DenseNode (NodeM.mk v (kids.map some ++ List.replicate pad none)
        kids.length term)

/-- The distinct first elements of a batch of sequences, in first-appearance
order. -/
def distinctFirsts [DecidableEq T] (ws : List (List T)) : List T :=
  ws.foldl (fun acc w =>
    match w.head? with
    | none => acc
    | some x => if x ∈ acc then acc else acc ++ [x]) []

/-- The dense root representation of a reachable trie: the root array is the
entry block followed by null padding, len counts the entries, the entries
are dense, and their values are the distinct first elements of the inserted
batch in first-appearance order. -/
def TrieRep [DecidableEq T] (s : RawTrieM T) (ws : List (List T))
    (ents : List (NodeM T)) : Prop :=
  (∃ pad, s.root = ents.map some ++ List.replicate pad none)
    ∧ ents.length = s.len
    ∧ (∀ n ∈ ents, DenseNode n)
    ∧ ents.map NodeM.val = distinctFirsts ws

/-- The non-null child slots of a node are exactly the indices below
child_count. -/
def IndexDense (n : NodeM T) : Prop :=
  ∀ i, (∃ c, n.children[i]? = some (some c)) ↔ i < n.child_count

/-- The nodes reachable inside a trie: root entries and, transitively, the
occupied children of reachable nodes. -/
inductive NodeIn (s : RawTrieM T) : NodeM T → Prop where
  | root {n : NodeM T} : n ∈ entries s → NodeIn s n
  | child {p c : NodeM T} : NodeIn s p →
      c ∈ p.children.filterMap id → NodeIn s c


/-! Concrete insertion batches used to evaluate the code on failing inputs. -/

/-- Three sequences sharing the prefix 0,1: the second extends it through a
node that stays terminal with two children. -/
def c1words : List (List Nat) := [[0, 1], [0, 1, 2, 3], [0, 1, 4]]

/-- Two sequences that fork below a repeated value on the path. -/
def c6words : List (List Nat) := [[0, 1, 0, 1], [0, 1, 0, 2]]

/-- A longer sequence inserted before one of its strict prefixes. -/
def c3words : List (List Nat) := [[0, 1, 2, 3], [0, 1, 2]]

/-- Twelve two-element sequences below the root value 0, filling twelve child
slots of that root node, followed by a thirteenth that fills the last slot. -/
def c5words : List (List Nat) :=
  ((List.range 12).map (fun i => [0, i + 1])) ++ [[0, 13]]

/-- Twenty-seven single-element sequences with distinct values: enough
distinct first elements to force the root array to grow twice. -/
def c7words : List (List Nat) := (List.range 27).map (fun i => [i])

/-- The trie holding exactly the sequence 0,1. -/
def c2trie : RawTrieM Nat := (insertAll [[0, 1]]).getD RawTrieM.new

/-- The trie holding exactly the sequence 3,4. -/
def oneTrie : RawTrieM Nat := (insertSeq [3, 4] RawTrieM.new).getD RawTrieM.new

/-- The trie holding exactly the sequence 1,2. -/
def c5once : RawTrieM Nat := (insertSeq [1, 2] RawTrieM.new).getD RawTrieM.new

/-- The root node of c2trie, holding value 0. -/
def c2node : NodeM Nat := (pathNode c2trie [0]).getD (NodeM.new 0 false)

/-- C1: the round-trip property fails on the code.  After inserting the
sequences of c1words into an empty trie, find on the non-empty prefix 0 of
the inserted sequence 0,1,4 collects 0,1 and 0,1,2,3 and 0,1,2,4 — the
inserted 0,1,4 is not among the results (the recursion never restores temp
after leaving the subtree below the terminal fan-out node 1, so the sibling
branch 4 inherits the leftover elements 2). -/
theorem claim_c1 :
    ((insertAll c1words).bind (fun s => find s [0])).map FoundM.collected
        = some [[0, 1], [0, 1, 2, 3], [0, 1, 2, 4]]
      ∧ [0, 1, 4] ∈ c1words
      ∧ ((insertAll c1words).bind (fun s => find s [0])).map
          (fun f => decide ([0, 1, 4] ∈ f.collected)) = some false := by
  refine ⟨by decide, by decide, by decide⟩

/-- The searching loop never completes once find_node misses: the loop body
falls through without advancing the index, so the same iteration repeats for
every remaining step budget. -/
theorem searchLoop_stuck [DecidableEq T] (keys : List T) (index : Nat)
    (node : NodeM T)
    (hk : ∀ k, keys[index]? = some k → findNode k node.children = none)
    (hlt : index < keys.length) :
    ∀ fuel f, searchLoopFuel fuel keys index node f = none := by
  intro fuel
  induction fuel with
  | zero => intro f; rfl
  | succ n ih =>
    intro f
    have hk0 : keys[index]? = some keys[index] := List.getElem?_eq_getElem hlt
    simp only [searchLoopFuel, hk0, hk _ hk0]
    exact ih f

/-- C2: find does not terminate on a prefix whose first element matches a
root entry but whose second element has no matching child.  With the trie
holding 0,1 and the prefix 0,9 the walk inside searching retries the same
index forever, so no step budget completes it; the divergence-marking
embedding of find flags the same input. -/
theorem claim_c2 :
    (∀ fuel, findFuel fuel c2trie [0, 9] = none)
      ∧ find c2trie [0, 9] = none := by
  refine ⟨fun fuel => ?_, rfl⟩
  show (searchLoopFuel fuel [0, 9] 1 c2node
      (pushVal 0 FoundM.new)).map (fun p => recurse p.1 p.2) = none
  rw [searchLoop_stuck [0, 9] 1 c2node
    (fun k hk0 => by
      have : k = 9 := by
        simp only [List.getElem?_cons_succ, List.getElem?_cons_zero,
          Option.some.injEq] at hk0
        omega
      subst this
      rfl)
    (by decide) fuel (pushVal 0 FoundM.new)]
  rfl

/-- C3: the terminal flag of an existing node is not set when a shorter
sequence ends at it.  After inserting 0,1,2,3 and then its strict prefix
0,1,2, the node reached by the path 0,1,2 still carries terminal = false:
add_child returns an existing matching child without touching its flag, so
the second insertion leaves no trace.  Accordingly find on the full prefix
0,1,2 collects only 0,1,2,3. -/
theorem claim_c3 :
    (insertAll c3words).isSome = true
      ∧ ((insertAll c3words).bind
          (fun s => pathNode s [0, 1, 2])).map NodeM.terminal = some false
      ∧ ((insertAll c3words).bind
          (fun s => find s [0, 1, 2])).map FoundM.collected
        = some [[0, 1, 2, 3]] := by
  refine ⟨by decide, by decide, by decide⟩

/-- C4: insert_seq computes the terminal flag of a fresh root node as
len + 1 == vals.len(), mixing the root occupancy into the sequence length.
Inserting 5 and then the one-element sequence 6 leaves the root node 6
non-terminal (claim expects terminal = true), while inserting 5 and then the
two-element sequence 7,8 marks the root node 7 terminal (claim expects
terminal = false). -/
theorem claim_c4 :
    ((insertAll [[5], [6]]).bind
        (fun s => pathNode s [6])).map NodeM.terminal = some false
      ∧ ((insertAll [[5], [7, 8]]).bind
          (fun s => pathNode s [7])).map NodeM.terminal = some true := by
  refine ⟨by decide, by decide⟩

/-- C6: the Found accumulator invariant fails.  After inserting 0,1,0,1 and
0,1,0,2, find on the prefix 0,1,0 collects 0,1,0,1 and then 0,2: when the
terminal node holding the final 2 is visited, temp is 0,2 rather than the
path 0,1,0,2 from the search root (branch_split truncated temp at the first
occurrence of the fan-out value 0), and the collected sequence 0,2 is
shorter than the three-element search prefix. -/
theorem claim_c6 :
    ((insertAll c6words).bind
        (fun s => find s [0, 1, 0])).map FoundM.collected
      = some [[0, 1, 0, 1], [0, 2]]
      ∧ ([0, 2] : List Nat).length < ([0, 1, 0] : List Nat).length := by
  refine ⟨by decide, by decide⟩

/-- C7: after 27 single-element insertions with distinct values the root
array has grown twice (13 to 26 to 52) and len is 27, the number of distinct
first elements, as the claim states — but the previously inserted sequence 1
is no longer findable: find 1 returns an empty collection, because the root
node 1 was created non-terminal (see claim_c4). -/
theorem claim_c7 :
    ((insertAll c7words).map (fun s => (s.root.length, s.len)))
        = some (52, 27)
      ∧ [1] ∈ c7words
      ∧ ((insertAll c7words).bind (fun s => find s [1])).map FoundM.collected
        = some [] := by
  refine ⟨by decide, by decide, by decide⟩

/-- C5 counterexample: duplicate insertion is not idempotent at every
reachable state.  Filling all 13 child slots of the root node 0 (c5words)
succeeds, but re-inserting the already present sequence 0,13 then panics in
add_child: the capacity check runs before the existing-match check, so the
second insertion aborts instead of leaving the trie unchanged. -/
theorem claim_c5_cex :
    (insertAll c5words).isSome = true
      ∧ ((insertAll c5words).bind
          (fun s => insertSeq [0, 13] s)).isSome = false := by
  refine ⟨by decide, by decide⟩

/-! Auxiliary lemmas about the linear scans and slot updates used by the
embedding. -/

theorem listPos_eq_none_iff {p : α → Bool} {l : List α} :
    listPos p l = none ↔ ∀ a ∈ l, p a = false := by
  induction l with
  | nil => simp [listPos]
  | cons a rest ih =>
    cases hpa : p a with
    | true => simp [listPos, hpa]
    | false => simp [listPos, hpa, ih]

theorem listPos_eq_some {p : α → Bool} {l : List α} {j : Nat}
    (h : listPos p l = some j) :
    j < l.length ∧ ∃ a, l[j]? = some a ∧ p a = true
      ∧ ∀ i, i < j → ∀ b, l[i]? = some b → p b = false := by
  induction l generalizing j with
  | nil => simp [listPos] at h
  | cons a rest ih =>
    cases hpa : p a with
    | true =>
      simp only [listPos, hpa, if_true] at h
      obtain rfl : (0 : Nat) = j := by injection h
      exact ⟨by simp, a, by simp, hpa,
        fun i hi b hb => absurd hi (Nat.not_lt_zero i)⟩
    | false =>
      simp only [listPos, hpa, Bool.false_eq_true, if_false,
        Option.map_eq_some'] at h
      obtain ⟨j2, hj2, rfl⟩ := h
      obtain ⟨hlt, b, hb, hpb, hbef⟩ := ih hj2
      refine ⟨by simp; omega, b, by simpa using hb, hpb, ?_⟩
      intro i hi c hc
      cases i with
      | zero =>
        simp only [List.getElem?_cons_zero, Option.some.injEq] at hc
        subst hc; exact hpa
      | succ i2 =>
        simp only [List.getElem?_cons_succ] at hc
        exact hbef i2 (by omega) c hc

theorem listPos_set_first {p : α → Bool} {a : α} (hpa : p a = true) :
    ∀ (l : List α) (j : Nat), j < l.length →
      (∀ i, i < j → ∀ b, l[i]? = some b → p b = false) →
      listPos p (l.set j a) = some j := by
  intro l
  induction l with
  | nil => intro j hj _; simp at hj
  | cons c rest ih =>
    intro j hj hbef
    cases j with
    | zero => simp [listPos, hpa]
    | succ j2 =>
      have hc : p c = false := hbef 0 (by omega) c (by simp)
      have hrec := ih j2 (by simpa using hj)
        (fun i hi b hb => hbef (i + 1) (by omega) b (by simpa using hb))
      simp [listPos, hc, hrec]

theorem listPos_map_some_append {β : Type u} (p : Option β → Bool)
    (hnone : p none = false) (l : List β) (k : Nat) :
    listPos p (l.map some ++ List.replicate k none)
      = listPos (fun b => p (some b)) l := by
  induction l with
  | nil =>
    simp only [List.map_nil, List.nil_append, listPos]
    induction k with
    | zero => rfl
    | succ k2 ih => simp [List.replicate_succ, listPos, hnone, ih]
  | cons b rest ih => simp [listPos, ih]

theorem set_of_getElem? {l : List α} {i : Nat} {a : α}
    (h : l[i]? = some a) : l.set i a = l := by
  induction l generalizing i with
  | nil => simp at h
  | cons c rest ih =>
    cases i with
    | zero =>
      simp only [List.getElem?_cons_zero, Option.some.injEq] at h
      subst h; simp
    | succ i2 =>
      simp only [List.getElem?_cons_succ] at h
      simp [ih h]

theorem set_map_some_lt {β : Type u} {l : List β} {pad j : Nat} {b : β}
    (hj : j < l.length) :
    (l.map some ++ List.replicate pad none).set j (some b)
      = (l.set j b).map some ++ List.replicate pad none := by
  rw [List.set_append, if_pos (by simpa using hj), ← List.map_set]

theorem set_map_some_boundary {β : Type u} {l : List β} {pad : Nat} {b : β}
    (hpad : 0 < pad) :
    (l.map some ++ List.replicate pad none).set l.length (some b)
      = (l ++ [b]).map some ++ List.replicate (pad - 1) none := by
  rw [List.set_append, if_neg (by simp)]
  simp only [List.length_map, Nat.sub_self]
  cases pad with
  | zero => omega
  | succ pad2 =>
    simp [List.replicate_succ, List.map_append, List.append_assoc]

theorem filterMap_id_rep {β : Type u} (l : List β) (pad : Nat) :
    (l.map some ++ List.replicate pad none).filterMap id = l := by
  rw [List.filterMap_append]
  have h1 : (l.map some).filterMap id = l := by
    rw [List.filterMap_map]
    simp [Function.comp_def]
  have h2 : (List.replicate pad (none : Option β)).filterMap id = [] := by
    induction pad with
    | zero => rfl
    | succ n ih => simp [List.replicate_succ, ih]
  simp [h1, h2]

theorem getElem?_rep_lt {β : Type u} {l : List β} {pad i : Nat}
    (hi : i < l.length) :
    (l.map some ++ List.replicate pad none)[i]? = some (some l[i]) := by
  rw [List.getElem?_append, if_pos (by simpa using hi), List.getElem?_map,
    List.getElem?_eq_getElem hi]
  rfl

theorem getElem?_rep_ge {β : Type u} {l : List β} {pad i : Nat}
    (h1 : l.length ≤ i) (h2 : i < l.length + pad) :
    (l.map some ++ List.replicate pad none)[i]? = some none := by
  rw [List.getElem?_append_right (by simpa using h1), List.getElem?_replicate,
    if_pos (by simp; omega)]

theorem find?_of_listPos {p : α → Bool} {l : List α} {j : Nat} {a : α}
    (h : listPos p l = some j) (ha : l[j]? = some a) :
    l.find? p = some a := by
  induction l generalizing j with
  | nil => simp [listPos] at h
  | cons c rest ih =>
    cases hpc : p c with
    | true =>
      simp only [listPos, hpc, if_true] at h
      obtain rfl : (0 : Nat) = j := by injection h
      simp only [List.getElem?_cons_zero, Option.some.injEq] at ha
      subst ha
      exact List.find?_cons_of_pos _ hpc
    | false =>
      simp only [listPos, hpc, Bool.false_eq_true, if_false,
        Option.map_eq_some'] at h
      obtain ⟨j2, hj2, rfl⟩ := h
      simp only [List.getElem?_cons_succ] at ha
      rw [List.find?_cons_of_neg _ (by simp [hpc])]
      exact ih hj2 ha

theorem listPos_of_find? {p : α → Bool} {l : List α} {a : α}
    (h : l.find? p = some a) :
    ∃ j, listPos p l = some j ∧ l[j]? = some a := by
  induction l with
  | nil => simp at h
  | cons c rest ih =>
    cases hpc : p c with
    | true =>
      rw [List.find?_cons_of_pos _ hpc] at h
      obtain rfl : c = a := by injection h
      exact ⟨0, by simp [listPos, hpc], by simp⟩
    | false =>
      rw [List.find?_cons_of_neg _ (by simp [hpc])] at h
      obtain ⟨j, hj, ha⟩ := ih h
      exact ⟨j + 1, by simp [listPos, hpc, hj], by simpa using ha⟩

/-! Lemmas about insert_rest below a fixed node. -/

theorem slotPred_none [DecidableEq T] (k : T) : slotPred k none = false := rfl

theorem insertRest_cons_inv [DecidableEq T] {next : T} {rest : List T}
    {v : T} {ch : List (Option (NodeM T))} {cc : Nat} {term : Bool}
    {n2 : NodeM T}
    (h : insertRest (next :: rest) (NodeM.mk v ch cc term) = some n2) :
    cc < ch.length ∧
      ((∃ j child child2, childPosition next ch = some j
          ∧ ch[j]? = some (some child)
          ∧ insertRest rest child = some child2
          ∧ n2 = NodeM.mk v (ch.set j (some child2)) cc term)
        ∨ (∃ child2, childPosition next ch = none
            ∧ ch[cc]? = some none
            ∧ insertRest rest (NodeM.new next rest.isEmpty) = some child2
            ∧ n2 = NodeM.mk v (ch.set cc (some child2)) (cc + 1) term)) := by
  simp only [insertRest] at h
  split at h
  · exact absurd h (by simp)
  · refine ⟨by omega, ?_⟩
    split at h
    · rename_i j hj
      split at h
      · rename_i child hchild
        simp only [Option.map_eq_some'] at h
        obtain ⟨child2, hc2, rfl⟩ := h
        exact Or.inl ⟨j, child, child2, hj, hchild, hc2, rfl⟩
      · exact absurd h (by simp)
    · rename_i hnone
      split at h
      · rename_i hslot
        simp only [Option.map_eq_some'] at h
        obtain ⟨child2, hc2, rfl⟩ := h
        exact Or.inr ⟨child2, hnone, hslot, hc2, rfl⟩
      · exact absurd h (by simp)

theorem insertRest_val [DecidableEq T] {rem : List T} {n n2 : NodeM T}
    (h : insertRest rem n = some n2) : n2.val = n.val := by
  cases rem with
  | nil =>
    simp only [insertRest, Option.some.injEq] at h
    subst h; rfl
  | cons next rest =>
    cases n with
    | mk v ch cc term =>
      obtain ⟨-, h | h⟩ := insertRest_cons_inv h
      · obtain ⟨j, child, child2, -, -, -, rfl⟩ := h
        rfl
      · obtain ⟨child2, -, -, -, rfl⟩ := h
        rfl

theorem denseNode_new (v : T) (term : Bool) : DenseNode (NodeM.new v term) := by
  show DenseNode (NodeM.mk v (List.replicate (26 / 2) none) 0 term)
  have h := DenseNode.intro v ([] : List (NodeM T)) (26 / 2) term
    (fun k hk => by simp at hk)
  simpa using h

theorem insertRest_dense [DecidableEq T] {rem : List T} :
    ∀ {n n2 : NodeM T}, DenseNode n → insertRest rem n = some n2 →
      DenseNode n2 := by
  induction rem with
  | nil =>
    intro n n2 _ h
    simp only [insertRest, Option.some.injEq] at h
    subst h; assumption
  | cons next rest ih =>
    intro n n2 hd h
    obtain ⟨v, kids, pad, term, hkids⟩ := hd
    obtain ⟨hcap, h | h⟩ := insertRest_cons_inv h
    · obtain ⟨j, child, child2, hj, hchild, hc2, rfl⟩ := h
      -- the matched slot lies inside the non-null block
      have hjk : j < kids.length := by
        by_contra hge
        push_neg at hge
        rcases Nat.lt_or_ge j (kids.length + pad) with hlt | hge2
        · rw [getElem?_rep_ge hge hlt] at hchild
          simp at hchild
        · rw [List.getElem?_eq_none (by simp; omega)] at hchild
          simp at hchild
      have hchild2 : child = kids[j] := by
        rw [getElem?_rep_lt hjk] at hchild
        simp only [Option.some.injEq] at hchild
        exact hchild.symm
      have hdc : DenseNode child := by
        rw [hchild2]; exact hkids _ (List.getElem_mem hjk)
      have hd2 : DenseNode child2 := ih hdc hc2
      rw [set_map_some_lt hjk]
      have hlen : (kids.set j child2).length = kids.length :=
        List.length_set kids j child2
      rw [← hlen]
      exact DenseNode.intro v (kids.set j child2) pad term
        (by
          intro k hk
          rcases List.mem_or_eq_of_mem_set hk with hk2 | rfl
          · exact hkids k hk2
          · exact hd2)
    · obtain ⟨child2, hnone, hslot, hc2, rfl⟩ := h
      have hpad : 0 < pad := by
        have h2 := hcap
        simp only [List.length_append, List.length_map,
          List.length_replicate] at h2
        omega
      have hd2 : DenseNode child2 := ih (denseNode_new next rest.isEmpty) hc2
      rw [set_map_some_boundary hpad]
      have hlen : (kids ++ [child2]).length = kids.length + 1 := by simp
      rw [← hlen]
      exact DenseNode.intro v (kids ++ [child2]) (pad - 1) term
        (by
          intro k hk
          rcases List.mem_append.mp hk with hk2 | hk2
          · exact hkids k hk2
          · simp only [List.mem_singleton] at hk2
            subst hk2
            exact hd2)

theorem findNode_eq_some [DecidableEq T] {k : T}
    {ch : List (Option (NodeM T))} {c : NodeM T}
    (h : findNode k ch = some c) : ch.find? (slotPred k) = some (some c) := by
  unfold findNode at h
  split at h
  · rename_i n heq
    injection h with h2
    subst h2
    exact heq
  · exact absurd h (by simp)

theorem findNode_set_match [DecidableEq T] {next : T}
    {ch : List (Option (NodeM T))} {j : Nat} {c2 : NodeM T}
    (hj : j < ch.length) (hval : c2.val = next)
    (hbef : ∀ i, i < j → ∀ b, ch[i]? = some b → slotPred next b = false) :
    findNode next (ch.set j (some c2)) = some c2 := by
  have hpos := listPos_set_first (p := slotPred next) (a := some c2)
    (by simp [slotPred, hval]) ch j hj hbef
  have hget : (ch.set j (some c2))[j]? = some (some c2) :=
    List.getElem?_set_self (by simpa using hj)
  have hfind := find?_of_listPos hpos hget
  simp [findNode, hfind]

theorem insertRest_contains [DecidableEq T] {rem : List T} :
    ∀ {n n2 : NodeM T}, insertRest rem n = some n2 →
      (walkNodes n2 rem).isSome = true := by
  induction rem with
  | nil => intro n n2 _; rfl
  | cons next rest ih =>
    intro n n2 h
    cases n with
    | mk v ch cc term =>
      obtain ⟨hcap, h | h⟩ := insertRest_cons_inv h
      · obtain ⟨j, child, child2, hj, hchild, hc2, rfl⟩ := h
        obtain ⟨hjlt, a, ha, hpa, hbef⟩ := listPos_eq_some hj
        have hac : a = some child := by
          rw [hchild] at ha
          simp only [Option.some.injEq] at ha
          exact ha.symm
        subst hac
        have hvc : child.val = next := by
          simp only [slotPred, beq_iff_eq] at hpa
          exact hpa
        have hval2 : child2.val = next := by
          rw [insertRest_val hc2, hvc]
        have hfn : findNode next (ch.set j (some child2)) = some child2 :=
          findNode_set_match hjlt hval2 hbef
        simp only [walkNodes, NodeM.children, hfn]
        exact ih hc2
      · obtain ⟨child2, hnone, hslot, hc2, rfl⟩ := h
        have hbef : ∀ i, i < cc → ∀ b, ch[i]? = some b →
            slotPred next b = false := by
          intro i _ b hb
          exact listPos_eq_none_iff.mp hnone b (List.getElem?_mem hb)
        have hval2 : child2.val = next := by
          rw [insertRest_val hc2]
          rfl
        have hfn : findNode next (ch.set cc (some child2)) = some child2 :=
          findNode_set_match hcap hval2 hbef
        simp only [walkNodes, NodeM.children, hfn]
        exact ih hc2

theorem insertRest_self [DecidableEq T] {rem : List T} :
    ∀ {n : NodeM T}, containsB n rem = true → roomB n rem = true →
      insertRest rem n = some n := by
  induction rem with
  | nil => intro n _ _; rfl
  | cons next rest ih =>
    intro n hc hr
    cases n with
    | mk v ch cc term =>
      simp only [roomB, NodeM.child_count, NodeM.children,
        Bool.and_eq_true, decide_eq_true_eq] at hr
      obtain ⟨hcap, hr2⟩ := hr
      simp only [containsB, walkNodes, NodeM.children] at hc
      cases hfn : findNode next ch with
      | none =>
        simp only [hfn] at hc
        simp at hc
      | some c =>
        simp only [hfn] at hc hr2
        have hfind : ch.find? (slotPred next) = some (some c) :=
          findNode_eq_some hfn
        obtain ⟨j, hj, hget⟩ := listPos_of_find? hfind
        have hrec : insertRest rest c = some c := ih hc hr2
        have hset : ch.set j (some c) = ch := set_of_getElem? hget
        simp only [insertRest, childPosition]
        rw [if_neg (by omega)]
        simp only [hj, hget, hrec, Option.map_some', hset]

/-! Root-level lemmas: the dense representation of the root array and how
the operations act on it. -/

theorem position_rep [DecidableEq T] {s : RawTrieM T} {ents : List (NodeM T)}
    {pad : Nat}
    (h : s.root = ents.map some ++ List.replicate pad none) (k : T) :
    position k s = listPos (fun e => slotPred k (some e)) ents := by
  unfold position
  rw [h, listPos_map_some_append _ rfl]

theorem resizeCheck_rep [DecidableEq T] {s : RawTrieM T}
    {ents : List (NodeM T)} {pad : Nat}
    (hroot : s.root = ents.map some ++ List.replicate pad none)
    (hlen : ents.length = s.len) :
    ∃ pad2, (resizeCheck s).root = ents.map some ++ List.replicate pad2 none
      ∧ (resizeCheck s).len = s.len := by
  unfold resizeCheck
  split
  · exact ⟨pad, hroot, rfl⟩
  · refine ⟨2 * s.root.length - s.len, ?_, rfl⟩
    show s.root.take s.len ++
        List.replicate (2 * s.root.length - s.len) none
      = ents.map some ++ List.replicate (2 * s.root.length - s.len) none
    rw [hroot, ← hlen]
    have htake : ((ents.map some ++ List.replicate pad none).take
        (ents.map some).length : List (Option (NodeM T))) = ents.map some :=
      List.take_left _ _
    simp only [List.length_map] at htake
    rw [htake]

theorem preResize_rep [DecidableEq T] {s : RawTrieM T}
    {ents : List (NodeM T)} {pad : Nat}
    (hroot : s.root = ents.map some ++ List.replicate pad none)
    (hlen : ents.length = s.len) :
    ∃ pad0, (preResize s).root = ents.map some ++ List.replicate pad0 none
      ∧ (preResize s).len = s.len := by
  unfold preResize
  split
  · exact resizeCheck_rep hroot hlen
  · exact ⟨pad, hroot, rfl⟩

theorem find_rep_eq [DecidableEq T] {s s2 : RawTrieM T}
    {ents : List (NodeM T)} {pad pad2 : Nat}
    (h : s.root = ents.map some ++ List.replicate pad none)
    (h2 : s2.root = ents.map some ++ List.replicate pad2 none) :
    ∀ keys, find s keys = find s2 keys := by
  intro keys
  cases keys with
  | nil => rfl
  | cons k rest =>
    have hpeq : position k s = position k s2 := by
      rw [position_rep h, position_rep h2]
    cases hp : position k s2 with
    | none =>
      have hp2 : position k s = none := hpeq.trans hp
      simp only [find, hp, hp2]
    | some idx =>
      have hp2 : position k s = some idx := hpeq.trans hp
      have hidx : idx < ents.length := by
        have := (listPos_eq_some ((position_rep h2 k) ▸ hp)).1
        exact this
      have hs : s.root[idx]? = some (some ents[idx]) := by
        rw [h]; exact getElem?_rep_lt hidx
      have hs2 : s2.root[idx]? = some (some ents[idx]) := by
        rw [h2]; exact getElem?_rep_lt hidx
      simp only [find, hp, hp2, hs, hs2]

theorem rootNode_rep_eq [DecidableEq T] {s s2 : RawTrieM T}
    {ents : List (NodeM T)} {pad pad2 : Nat}
    (h : s.root = ents.map some ++ List.replicate pad none)
    (h2 : s2.root = ents.map some ++ List.replicate pad2 none) :
    ∀ k, rootNode k s = rootNode k s2 := by
  intro k
  have hpeq : position k s = position k s2 := by
    rw [position_rep h, position_rep h2]
  cases hp : position k s2 with
  | none =>
    have hp2 : position k s = none := hpeq.trans hp
    simp only [rootNode, hp, hp2]
  | some idx =>
    have hp2 : position k s = some idx := hpeq.trans hp
    have hidx : idx < ents.length := (listPos_eq_some ((position_rep h2 k) ▸ hp)).1
    have hs : s.root[idx]? = some (some ents[idx]) := by
      rw [h]; exact getElem?_rep_lt hidx
    have hs2 : s2.root[idx]? = some (some ents[idx]) := by
      rw [h2]; exact getElem?_rep_lt hidx
    simp only [rootNode, hp, hp2, hs, hs2]

theorem insertSeq_cons_inv [DecidableEq T] {first : T} {rest : List T}
    {s s1 : RawTrieM T} (h : insertSeq (first :: rest) s = some s1) :
    (∃ idx node node2, position first (preResize s) = some idx
        ∧ (preResize s).root[idx]? = some (some node)
        ∧ insertRest rest node = some node2
        ∧ s1 = { preResize s with
            root := (preResize s).root.set idx (some node2) })
      ∨ (∃ node2, position first (preResize s) = none
          ∧ (preResize s).root[(preResize s).len]? = some none
          ∧ insertRest rest
              (NodeM.new first ((preResize s).len + 1 == rest.length + 1))
            = some node2
          ∧ s1 = RawTrieM.mk
              ((preResize s).root.set (preResize s).len (some node2))
              ((preResize s).len + 1)) := by
  simp only [insertSeq] at h
  split at h
  · rename_i idx hidx
    split at h
    · rename_i node hnode
      simp only [Option.map_eq_some'] at h
      obtain ⟨node2, hn2, rfl⟩ := h
      exact Or.inl ⟨idx, node, node2, hidx, hnode, hn2, rfl⟩
    · exact absurd h (by simp)
  · rename_i hnone
    split at h
    · rename_i hslot
      simp only [Option.map_eq_some'] at h
      obtain ⟨node2, hn2, rfl⟩ := h
      exact Or.inr ⟨node2, hnone, hslot, hn2, rfl⟩
    · exact absurd h (by simp)

theorem distinctFirsts_append [DecidableEq T] (ws : List (List T))
    (w : List T) :
    distinctFirsts (ws ++ [w]) =
      match w.head? with
      | none => distinctFirsts ws
      | some x => if x ∈ distinctFirsts ws then distinctFirsts ws
          else distinctFirsts ws ++ [x] := by
  unfold distinctFirsts
  rw [List.foldl_append]
  rfl

/-- One successful insert_seq step preserves the dense representation and
extends the entry values by the distinct first elements of the batch. -/
theorem insertSeq_rep [DecidableEq T] {s : RawTrieM T} {ws : List (List T)}
    {vals : List T} {s1 : RawTrieM T} {ents : List (NodeM T)}
    (rep : TrieRep s ws ents) (h : insertSeq vals s = some s1) :
    ∃ ents1, TrieRep s1 (ws ++ [vals]) ents1 := by
  obtain ⟨⟨pad, hroot⟩, hlen, hdense, hvals⟩ := rep
  obtain ⟨pad0, hroot0, hlen0⟩ := preResize_rep hroot hlen
  cases vals with
  | nil =>
    have hs1 : s1 = preResize s := by
      simp only [insertSeq, Option.some.injEq] at h
      exact h.symm
    subst hs1
    refine ⟨ents, ⟨pad0, hroot0⟩, ?_, hdense, ?_⟩
    · rw [hlen0, ← hlen]
    · rw [distinctFirsts_append]
      exact hvals
  | cons first rest =>
    rcases insertSeq_cons_inv h with
      ⟨idx, node, node2, hidx, hnode, hn2, rfl⟩ |
      ⟨node2, hnone, hslot, hn2, rfl⟩
    · have hplist : listPos (fun e => slotPred first (some e)) ents
          = some idx := by
        rw [← position_rep hroot0]; exact hidx
      obtain ⟨hidxlt, a, ha, hpa, hbef⟩ := listPos_eq_some hplist
      have hamem : a ∈ ents := List.getElem?_mem ha
      have haval : a.val = first := by
        simpa [slotPred] using hpa
      have hents_a : ents[idx] = a := by
        rw [List.getElem?_eq_getElem hidxlt] at ha
        injection ha
      have hnode_eq : node = a := by
        rw [hroot0, getElem?_rep_lt hidxlt] at hnode
        simp only [Option.some.injEq] at hnode
        rw [← hnode, hents_a]
      refine ⟨ents.set idx node2, ⟨pad0, ?_⟩, ?_, ?_, ?_⟩
      · show (preResize s).root.set idx (some node2) = _
        rw [hroot0, set_map_some_lt hidxlt]
      · show (ents.set idx node2).length = (preResize s).len
        rw [List.length_set, hlen0, ← hlen]
      · intro n hn
        rcases List.mem_or_eq_of_mem_set hn with hn2m | rfl
        · exact hdense n hn2m
        · have hnd : DenseNode node := by
            rw [hnode_eq]; exact hdense a hamem
          exact insertRest_dense hnd hn2
      · rw [distinctFirsts_append]
        have hmem : first ∈ distinctFirsts ws := by
          rw [← hvals]
          exact List.mem_map.mpr ⟨a, hamem, haval⟩
        simp only [List.head?_cons, hmem, if_true]
        rw [List.map_set]
        have hv2 : node2.val = a.val := by
          rw [insertRest_val hn2, hnode_eq]
        rw [hv2, ← hvals]
        apply set_of_getElem?
        rw [List.getElem?_map, List.getElem?_eq_getElem hidxlt, hents_a]
        rfl
    · have hplist : listPos (fun e => slotPred first (some e)) ents
          = none := by
        rw [← position_rep hroot0]; exact hnone
      have hnotmem : ∀ e ∈ ents, ¬ e.val = first := by
        intro e he
        have hne := listPos_eq_none_iff.mp hplist e he
        simpa [slotPred] using hne
      have hlen0e : (preResize s).len = ents.length := by
        rw [hlen0, ← hlen]
      have hpad0pos : 0 < pad0 := by
        by_contra hz
        push_neg at hz
        have hp0 : pad0 = 0 := by omega
        subst hp0
        rw [hroot0, hlen0e] at hslot
        rw [List.getElem?_eq_none (by simp)] at hslot
        exact absurd hslot (by simp)
      refine ⟨ents ++ [node2], ⟨pad0 - 1, ?_⟩, ?_, ?_, ?_⟩
      · show (preResize s).root.set (preResize s).len (some node2) = _
        rw [hroot0, hlen0e, set_map_some_boundary hpad0pos]
      · show (ents ++ [node2]).length = (preResize s).len + 1
        rw [List.length_append, hlen0e]
        rfl
      · intro n hn
        rcases List.mem_append.mp hn with hn2m | hn2m
        · exact hdense n hn2m
        · simp only [List.mem_singleton] at hn2m
          subst hn2m
          exact insertRest_dense (denseNode_new _ _) hn2
      · rw [distinctFirsts_append]
        have hnm : first ∉ distinctFirsts ws := by
          rw [← hvals]
          intro hmem
          obtain ⟨e, he, hev⟩ := List.mem_map.mp hmem
          exact hnotmem e he hev
        simp only [List.head?_cons, hnm, if_false]
        rw [List.map_append, ← hvals]
        have hv2 : node2.val = first := by
          rw [insertRest_val hn2]
          rfl
        simp [hv2]

/-- Every reachable trie state carries the dense representation. -/
theorem built_rep [DecidableEq T] {s : RawTrieM T} {ws : List (List T)}
    (hb : Built s ws) : ∃ ents, TrieRep s ws ents := by
  induction hb with
  | base =>
    refine ⟨[], ⟨26 / 2, by simp [RawTrieM.new]⟩, rfl, by simp, rfl⟩
  | step hb2 hins ih =>
    obtain ⟨ents, hrep⟩ := ih
    exact insertSeq_rep hrep hins

theorem denseNode_closed {n c : NodeM T} (hd : DenseNode n)
    (hc : c ∈ n.children.filterMap id) : DenseNode c := by
  obtain ⟨v, kids, pad, term, hk⟩ := hd
  simp only [NodeM.children] at hc
  rw [filterMap_id_rep] at hc
  exact hk c hc

theorem denseNode_index {n : NodeM T} (hd : DenseNode n) : IndexDense n := by
  obtain ⟨v, kids, pad, term, hk⟩ := hd
  intro i
  simp only [NodeM.children, NodeM.child_count]
  constructor
  · rintro ⟨c, hc⟩
    by_contra hge
    push_neg at hge
    rcases Nat.lt_or_ge i (kids.length + pad) with h1 | h1
    · rw [getElem?_rep_ge hge h1] at hc
      simp at hc
    · rw [List.getElem?_eq_none (by simp; omega)] at hc
      simp at hc
  · intro hi
    exact ⟨kids[i], getElem?_rep_lt hi⟩

theorem rootNode_inv [DecidableEq T] {k : T} {s : RawTrieM T} {n : NodeM T}
    (h : rootNode k s = some n) :
    ∃ idx, position k s = some idx ∧ s.root[idx]? = some (some n) := by
  unfold rootNode at h
  split at h
  · rename_i idx hidx
    split at h
    · rename_i nn hnn
      injection h with h2
      subst h2
      exact ⟨idx, hidx, hnn⟩
    · exact absurd h (by simp)
  · exact absurd h (by simp)

/-- A successful insert leaves the inserted sequence matched in the trie:
its first element names a root entry below which the remaining elements walk
through existing children. -/
theorem insertSeq_present [DecidableEq T] {first : T} {rest : List T}
    {s s1 : RawTrieM T} (h : insertSeq (first :: rest) s = some s1) :
    ∃ n, rootNode first s1 = some n ∧ containsB n rest = true := by
  rcases insertSeq_cons_inv h with
    ⟨idx, node, node2, hidx, hnode, hn2, rfl⟩ |
    ⟨node2, hnone, hslot, hn2, rfl⟩
  · obtain ⟨hidxlt, a, ha, hpa, hbef⟩ := listPos_eq_some hidx
    have ha2 : a = some node := by
      rw [hnode] at ha
      simp only [Option.some.injEq] at ha
      exact ha.symm
    subst ha2
    have hnval : node.val = first := by
      simpa [slotPred] using hpa
    have hval : node2.val = first := by
      rw [insertRest_val hn2, hnval]
    have hpos1 : listPos (slotPred first)
        ((preResize s).root.set idx (some node2)) = some idx :=
      listPos_set_first (by simp [slotPred, hval]) _ idx hidxlt hbef
    have hget : ((preResize s).root.set idx (some node2))[idx]?
        = some (some node2) :=
      List.getElem?_set_self (by simpa using hidxlt)
    refine ⟨node2, ?_, insertRest_contains hn2⟩
    have hp : position first (RawTrieM.mk
        ((preResize s).root.set idx (some node2)) (preResize s).len)
        = some idx := hpos1
    have hg : (RawTrieM.mk ((preResize s).root.set idx (some node2))
        (preResize s).len).root[idx]? = some (some node2) := hget
    show rootNode first (RawTrieM.mk
        ((preResize s).root.set idx (some node2)) (preResize s).len)
      = some node2
    simp only [rootNode, hp, hg]
  · have hall := listPos_eq_none_iff.mp hnone
    have hlenlt : (preResize s).len < (preResize s).root.length := by
      by_contra hge
      push_neg at hge
      rw [List.getElem?_eq_none hge] at hslot
      exact absurd hslot (by simp)
    have hval : node2.val = first := by
      rw [insertRest_val hn2]
      rfl
    have hpos1 : listPos (slotPred first)
        ((preResize s).root.set (preResize s).len (some node2))
        = some (preResize s).len :=
      listPos_set_first (by simp [slotPred, hval]) _ _ hlenlt
        (fun i hi b hb => hall b (List.getElem?_mem hb))
    have hget : ((preResize s).root.set (preResize s).len
        (some node2))[(preResize s).len]? = some (some node2) :=
      List.getElem?_set_self (by simpa using hlenlt)
    refine ⟨node2, ?_, insertRest_contains hn2⟩
    have hp : position first (RawTrieM.mk
        ((preResize s).root.set (preResize s).len (some node2))
        ((preResize s).len + 1)) = some (preResize s).len := hpos1
    have hg : (RawTrieM.mk
        ((preResize s).root.set (preResize s).len (some node2))
        ((preResize s).len + 1)).root[(preResize s).len]?
        = some (some node2) := hget
    show rootNode first (RawTrieM.mk
        ((preResize s).root.set (preResize s).len (some node2))
        ((preResize s).len + 1)) = some node2
    simp only [rootNode, hp, hg]

theorem oneTrie_insert : insertSeq [3, 4] RawTrieM.new = some oneTrie := by
  rfl

theorem c5once_insert : insertSeq [1, 2] RawTrieM.new = some c5once := by
  rfl

/-- C8: at every reachable (quiescent, single-threaded) trie state, len
equals the number of non-null root entries, which equals the number of
distinct first elements across the inserted sequences.  find and len are
read-only by construction of the embedding (they take the state and return
no new state), so every operation preserves the invariant. -/
theorem claim_c8 [DecidableEq T] {s : RawTrieM T} {ws : List (List T)}
    (hb : Built s ws) :
    s.len = (entries s).length ∧ s.len = (distinctFirsts ws).length := by
  obtain ⟨ents, ⟨pad, hroot⟩, hlen, hdense, hvals⟩ := built_rep hb
  have hents : entries s = ents := by
    unfold entries
    rw [hroot]
    exact filterMap_id_rep ents pad
  constructor
  · rw [hents, hlen]
  · rw [← hvals, List.length_map, hlen]

/-- Witness for claim_c8 at the reachable trie holding the sequence 3,4. -/
theorem claim_c8_witness :
    oneTrie.len = (entries oneTrie).length
      ∧ oneTrie.len = (distinctFirsts [[3, 4]]).length :=
  claim_c8 (Built.step Built.base oneTrie_insert)

/-- C10: in every reachable trie state the non-null root slots are exactly
the indices below len and hold the distinct first elements in insertion
order, and every reachable node has its non-null child slots exactly at the
indices below child_count — the dense-slot invariant that the linear scans
and the resize copy loop rely on. -/
theorem claim_c10 [DecidableEq T] {s : RawTrieM T} {ws : List (List T)}
    (hb : Built s ws) :
    (∀ i, (∃ n, s.root[i]? = some (some n)) ↔ i < s.len)
      ∧ (entries s).map NodeM.val = distinctFirsts ws
      ∧ ∀ n, NodeIn s n → IndexDense n := by
  obtain ⟨ents, ⟨pad, hroot⟩, hlen, hdense, hvals⟩ := built_rep hb
  have hents : entries s = ents := by
    unfold entries
    rw [hroot]
    exact filterMap_id_rep ents pad
  refine ⟨?_, by rw [hents]; exact hvals, ?_⟩
  · intro i
    constructor
    · rintro ⟨n, hn⟩
      by_contra hge
      push_neg at hge
      have hge2 : ents.length ≤ i := by omega
      rcases Nat.lt_or_ge i (ents.length + pad) with h1 | h1
      · rw [hroot, getElem?_rep_ge hge2 h1] at hn
        simp at hn
      · rw [hroot, List.getElem?_eq_none (by simp; omega)] at hn
        simp at hn
    · intro hi
      have hi2 : i < ents.length := by omega
      exact ⟨ents[i], by rw [hroot]; exact getElem?_rep_lt hi2⟩
  · have hdn : ∀ n, NodeIn s n → DenseNode n := by
      intro n hn
      induction hn with
      | root hmem => exact hdense _ (by rwa [hents] at hmem)
      | child hp hc ih => exact denseNode_closed ih hc
    intro n hn
    exact denseNode_index (hdn n hn)

/-- Witness for claim_c10 at the reachable trie holding the sequence 3,4. -/
theorem claim_c10_witness :
    (∀ i, (∃ n, oneTrie.root[i]? = some (some n)) ↔ i < oneTrie.len)
      ∧ (entries oneTrie).map NodeM.val = distinctFirsts [[3, 4]]
      ∧ ∀ n, NodeIn oneTrie n → IndexDense n :=
  claim_c10 (Built.step Built.base oneTrie_insert)

/-- C9: at every reachable trie state, inserting the empty sequence
succeeds and changes neither len, nor the root entries, nor any find
result (when len + 1 has reached the capacity it still runs the resize
step, which only pads the root array with further null slots); find on the
empty prefix and find on a prefix whose first element is not among the
root values both return the empty accumulator without error. -/
theorem claim_c9 [DecidableEq T] {s : RawTrieM T} {ws : List (List T)}
    (hb : Built s ws) :
    (∃ s2, insertSeq ([] : List T) s = some s2 ∧ s2.len = s.len
        ∧ entries s2 = entries s ∧ ∀ p, find s2 p = find s p)
      ∧ find s ([] : List T) = some FoundM.new
      ∧ ∀ k rest, k ∉ rootVals s → find s (k :: rest) = some FoundM.new := by
  obtain ⟨ents, ⟨pad, hroot⟩, hlen, hdense, hvals⟩ := built_rep hb
  obtain ⟨pad0, hroot0, hlen0⟩ := preResize_rep hroot hlen
  refine ⟨⟨preResize s, rfl, hlen0, ?_, ?_⟩, rfl, ?_⟩
  · unfold entries
    rw [hroot0, filterMap_id_rep, hroot, filterMap_id_rep]
  · exact find_rep_eq hroot0 hroot
  · intro k rest hk
    have hpos : position k s = none := by
      rw [position_rep hroot]
      apply listPos_eq_none_iff.mpr
      intro e he
      have hmem : e.val ∈ rootVals s := by
        unfold rootVals entries
        rw [hroot, filterMap_id_rep]
        exact List.mem_map.mpr ⟨e, he, rfl⟩
      simp only [slotPred, beq_eq_false_iff_ne, ne_eq]
      intro hek
      rw [hek] at hmem
      exact hk hmem
    simp only [find, hpos]

/-- Witness for claim_c9 at the reachable trie holding the sequence 3,4. -/
theorem claim_c9_witness :
    ((∃ s2, insertSeq ([] : List Nat) oneTrie = some s2
        ∧ s2.len = oneTrie.len ∧ entries s2 = entries oneTrie
        ∧ ∀ p, find s2 p = find oneTrie p)
      ∧ find oneTrie ([] : List Nat) = some FoundM.new
      ∧ ∀ k rest, k ∉ rootVals oneTrie →
          find oneTrie (k :: rest) = some FoundM.new) :=
  claim_c9 (Built.step Built.base oneTrie_insert)

/-- C5 amended: re-inserting an already inserted sequence is idempotent
provided no node along its path has a full child-slot array.  Starting
from a reachable state, if inserting vals succeeded and every node along
the matched walk of vals in the new state still has a free child slot,
then inserting vals again succeeds and leaves len, the root entries and
every find result unchanged (the repeated insert may still run the resize
step, which only pads the root array with null slots). -/
theorem claim_c5 [DecidableEq T] {s : RawTrieM T} {ws : List (List T)}
    {vals : List T} {s1 : RawTrieM T}
    (hb : Built s ws) (h1 : insertSeq vals s = some s1)
    (hroom : trieRoom s1 vals = true) :
    ∃ s2, insertSeq vals s1 = some s2 ∧ s2.len = s1.len
      ∧ entries s2 = entries s1 ∧ ∀ p, find s2 p = find s1 p := by
  have hb1 : Built s1 (ws ++ [vals]) := Built.step hb h1
  obtain ⟨ents, ⟨pad, hroot⟩, hlen, hdense, hvals⟩ := built_rep hb1
  obtain ⟨pad0, hroot0, hlen0⟩ := preResize_rep hroot hlen
  cases vals with
  | nil =>
    refine ⟨preResize s1, rfl, hlen0, ?_, ?_⟩
    · unfold entries
      rw [hroot0, filterMap_id_rep, hroot, filterMap_id_rep]
    · exact find_rep_eq hroot0 hroot
  | cons first rest =>
    obtain ⟨n, hrootn, hcont⟩ := insertSeq_present h1
    have hroom2 : roomB n rest = true := by
      simpa [trieRoom, hrootn] using hroom
    have hrn0 : rootNode first (preResize s1) = some n :=
      (rootNode_rep_eq hroot0 hroot first).trans hrootn
    obtain ⟨idx, hpos0, hslot0⟩ := rootNode_inv hrn0
    have hself : insertRest rest n = some n := insertRest_self hcont hroom2
    refine ⟨preResize s1, ?_, hlen0, ?_, ?_⟩
    · simp only [insertSeq, hpos0, hslot0, hself, Option.map_some']
      rw [set_of_getElem? hslot0]
    · unfold entries
      rw [hroot0, filterMap_id_rep, hroot, filterMap_id_rep]
    · exact find_rep_eq hroot0 hroot

/-- Witness for claim_c5: the sequence 1,2 inserted once into the fresh
trie and then re-inserted. -/
theorem claim_c5_witness :
    (insertSeq [1, 2] RawTrieM.new = some c5once
        ∧ trieRoom c5once [1, 2] = true)
      ∧ ∃ s2, insertSeq [1, 2] c5once = some s2 ∧ s2.len = c5once.len
          ∧ entries s2 = entries c5once ∧ ∀ p, find s2 p = find c5once p :=
  ⟨⟨c5once_insert, by decide⟩, claim_c5 Built.base c5once_insert (by decide)⟩

/-! Validation of the embedding against the passing tests of the
repository. -/

/-- The trie_seq_find test of src/lib.rs: inserting cat and cow and finding
the prefix c yields exactly those two words (letters encoded as alphabet
positions: c=2, a=0, t=19, o=14, w=22). -/
theorem model_matches_trie_seq_find :
    ((insertAll [[2, 0, 19], [2, 14, 22]]).bind
        (fun s => find s [2])).map FoundM.collected
      = some [[2, 0, 19], [2, 14, 22]] := by decide

/-- The complex_insert_search test of src/lib.rs: inserting cod, code,
coder, coding, codes and finding the prefix c yields five collected
sequences (the test asserts only the count; the fifth sequence the code
collects is in fact wrong, see claim_c1 and claim_c6). -/
theorem model_matches_complex_insert_search :
    ((insertAll [[2, 14, 3], [2, 14, 3, 4], [2, 14, 3, 4, 17],
          [2, 14, 3, 8, 13, 6], [2, 14, 3, 4, 18]]).bind
        (fun s => find s [2])).map (fun f => f.collected.length)
      = some 5 := by decide

end ParTrie
